import Mathlib

/-!
# Verification of the card-ingestion pipeline

A shallow embedding of `src/MDFILES/automate.py` (document-store variant) and
`src/MDFILES/promoauto.py` (JSON-file variant) of the gohye card-ingestion
pipeline, together with proofs settling the frozen claims about it.

Modelling conventions:
* Python strings are `List Char`; characters are modelled at ASCII level
  (the repository only handles ASCII file names), so `str.lower` is
  `Char.toLower` mapped over the list and the regex classes `\d` / `\w`
  are ASCII ranges.
* The object store is a write-only environment: an oracle telling, per
  relative file path, whether its upload succeeds.  The Mongo/JSON catalog
  is an explicit in-memory state (lists of collection and card records).
* Exceptions are `Except`; `CardProcessingError(code)` is the `Nat` code.
  Timestamps (`added` fields) are not modelled.
* The thread pool of `upload_files` is modelled by submission order; the
  source's completion order is nondeterministic, but every property proved
  here is insensitive to that order (error raised iff some valid file
  fails; set of returned paths).
-/

/-! ## Character-level helpers (ASCII models of Python `str.lower`, `\d`, `\w`) -/

/-- Python regex class `\d` restricted to ASCII: the characters 0-9. -/
def isDigitChar (c : Char) : Bool := 48 ≤ c.toNat && c.toNat ≤ 57

/-- Python regex class `\w` restricted to ASCII: letters, digits and underscore. -/
def isWordChar (c : Char) : Bool :=
  (48 ≤ c.toNat && c.toNat ≤ 57) || (65 ≤ c.toNat && c.toNat ≤ 90) ||
  (97 ≤ c.toNat && c.toNat ≤ 122) || (c.toNat == 95)

/-- Python `str.lower` (ASCII): `Char.toLower` on every character. -/
def str_lower (s : List Char) : List Char := s.map Char.toLower

/-- Pointwise model of Python `str.replace(' ', '_')`. -/
def replaceSpace (c : Char) : Char := if c = ' ' then '_' else c

/-! ## `os.path.splitext`

CPython (`genericpath._splitext`, basenames only): split at the last dot,
unless every character before that dot is itself a dot (then no extension).
-/

/-- The number of characters strictly after the last `'.'` of `s` (equals
`s.length` when `s` has no dot). -/
def extLen (s : List Char) : Nat := (s.reverse.takeWhile (fun c => c != '.')).length

/-- Model of `os.path.splitext` on a basename: returns `(root, ext)` where
`ext` starts at the last `'.'`, provided some non-dot character precedes it;
otherwise the extension is empty. -/
def splitext (s : List Char) : List Char × List Char :=
  if extLen s = s.length then (s, [])
  else if (s.take (s.length - extLen s - 1)).any (fun c => c != '.') then
    (s.take (s.length - extLen s - 1), s.drop (s.length - extLen s - 1))
  else (s, [])

/-! ## Filename validation

`automate.py` line 73: `re.compile(r'\d+_\w+(\_\w+)?\.\w+')` used with
`re.match` (prefix match at the start of the string).  Because `\w` contains
`'_'`, the fragment `\w+(\_\w+)?` matches exactly the nonempty words over
`\w`, and because the character after a shorter digit/word run would again be
a digit/word character, backtracking always ends each run at its maximal
extent.  The regex therefore accepts exactly the strings with a prefix
`digits+ '_' wordchars+ '.' wordchar`, which is what the scan below decides.
-/

/-- `automate.py` `is_valid_filename`: decides `re.match(r'\d+_\w+(\_\w+)?\.\w+', s)`. -/
def is_valid_filename (s : List Char) : Bool :=
  if (s.takeWhile isDigitChar).isEmpty then false
  else
    match s.dropWhile isDigitChar with
    | '_' :: r =>
      if (r.takeWhile isWordChar).isEmpty then false
      else
        match r.dropWhile isWordChar with
        | '.' :: c :: _ => isWordChar c
        | _ => false
    | _ => false

/-- Detects an `'_'` at some position `i` of the list with `i < length - 1`,
i.e. an underscore that is not the last character. -/
def hasUnderscoreNotLast : List Char → Bool
  | [] => false
  | [_] => false
  | c :: rest => (c == '_') || hasUnderscoreNotLast rest

/-- `promoauto.py` line 61: `re.compile(r'\d+_\w+_\w+\.\w+')` with `re.match`.
Same analysis as for `is_valid_filename`, except that the word run between
the first `'_'` and the dot must additionally split as `\w+ '_' \w+`, i.e.
contain an underscore that is neither its first nor its last character. -/
def promo_is_valid_filename (s : List Char) : Bool :=
  if (s.takeWhile isDigitChar).isEmpty then false
  else
    match s.dropWhile isDigitChar with
    | '_' :: r =>
      (match r.takeWhile isWordChar with
       | [] => false
       | _ :: wrest => hasUnderscoreNotLast wrest) &&
      (match r.dropWhile isWordChar with
       | '.' :: c :: _ => isWordChar c
       | _ => false)
    | _ => false

/-! ## `rename_files`

Both scripts (`automate.py` lines 76-83): for each file, the new basename is
`file_name.lower().replace(' ', '_') + file_ext` with
`file_name, file_ext = os.path.splitext(file)`. -/

/-- The basename a file is renamed to by `rename_files`. -/
def renamedName (s : List Char) : List Char :=
  ((splitext s).1.map Char.toLower).map replaceSpace ++ (splitext s).2

/-! ## Python `int()` on the level prefix

Both catalog writers run `int(card_id.split('_')[0])`.  The model parses a
nonempty all-digit string and fails (raises `ValueError`) otherwise; this is
Python's behaviour on every string reachable in the pipeline. -/

/-- Decimal value of an ASCII digit. -/
def digitVal (c : Char) : Nat := c.toNat - 48

/-- Model of Python `int(s)` for the strings arising here: succeeds exactly on
nonempty all-digit strings. -/
def int_parse (l : List Char) : Option Nat :=
  if !l.isEmpty && l.all isDigitChar then
    some (l.foldl (fun a c => 10 * a + digitVal c) 0)
  else none

/-- `'_'.join(x.split('_')[1:])`: everything after the first underscore of
`x`, or the empty string when `x` has no underscore.  (Joining the split
tail with `'_'` restores the interior underscores, so this is the suffix
after the first underscore.) -/
def name_without_prefix_of (card_id : List Char) : List Char :=
  (card_id.dropWhile (fun c => c != '_')).drop 1

/-- `x.split('_')[0]`: the prefix of `x` before the first underscore. -/
def first_underscore_segment (card_id : List Char) : List Char :=
  card_id.takeWhile (fun c => c != '_')

/-! ## Uploader (`automate.py` lines 90-134) -/

/-- `ACCEPTED_EXTENSIONS` (line 19 of both scripts).  The constant is defined
but never consulted by validation or upload; only `promoauto.py`'s catalog
step reads it. -/
def ACCEPTED_EXTENSIONS : List (List Char) :=
  [".jpg".data, ".png".data, ".jpeg".data, ".gif".data]

/-- Line 99: `file_ext if file_ext.lower() == ".gif" else ".jpg"`. -/
def new_file_ext (file_ext : List Char) : List Char :=
  if str_lower file_ext = ".gif".data then file_ext else ".jpg".data

/-- Line 104: `"image/gif" if file_ext.lower() == '.gif' else "image/jpeg"`. -/
def content_type_of (file_ext : List Char) : List Char :=
  if str_lower file_ext = ".gif".data then "image/gif".data else "image/jpeg".data

/-- The object-storage key `cards/{target}/{folder}/{relative_path_new_ext}`
built by `automate.py` line 105. -/
def s3_key (target folder rel : List Char) : List Char :=
  "cards/".data ++ target ++ "/".data ++ folder ++ "/".data ++
    ((splitext rel).1 ++ new_file_ext (splitext rel).2)

/-- The object-storage behaviour: which relative paths upload successfully. -/
structure UploadEnv where
  uploadOk : List Char → Bool

/-- `automate.py` `upload_file`: skip (return `None`) on an invalid name
before any storage call; on upload failure raise `CardProcessingError(_, 1)`;
on success return the original relative path. -/
def upload_file (env : UploadEnv) (rel : List Char) : Except Nat (Option (List Char)) :=
  if !is_valid_filename rel then Except.ok none
  else if env.uploadOk rel then Except.ok (some rel)
  else Except.error 1

/-- `automate.py` `upload_files`: one task per file; any raised task error
propagates; otherwise collect the non-`None` results. -/
def upload_files (env : UploadEnv) : List (List Char) → Except Nat (List (List Char))
  | [] => Except.ok []
  | f :: rest =>
    match upload_file env f with
    | Except.error e => Except.error e
    | Except.ok none => upload_files env rest
    | Except.ok (some p) =>
      match upload_files env rest with
      | Except.error e => Except.error e
      | Except.ok others => Except.ok (p :: others)

/-! ## Catalog data model (`automate.py` `update_database`, lines 136-196) -/

/-- A document of the `collections` collection (timestamp omitted). -/
structure Collection where
  id : List Char
  name : List Char
  origin : Option (List Char)
  aliases : List (List Char)
  promo : Bool
  compressed : Bool
  rarity : Int
  tags : List (List Char)
deriving DecidableEq

/-- A document of the `cards` collection (timestamp omitted). -/
structure Card where
  id : Nat
  name : List Char
  level : Nat
  col : List Char
  animated : Bool
  tags : List Char
  url : List Char
  shorturl : List Char
deriving DecidableEq

/-- The document store: the `collections` and `cards` collections. -/
structure CatalogState where
  collections : List Collection
  cards : List Card
deriving DecidableEq

/-- The new-collection document built at lines 145-155. -/
def mk_collection (folder_name target_directory : List Char) : Collection :=
  { id := folder_name
    name := folder_name.map Char.toUpper
    origin := none
    aliases := [folder_name]
    promo := false
    compressed := true
    rarity := -1
    tags := [target_directory] }

/-- Lines 141-158: look up the collection by `id`; insert a fresh document
when absent.  Returns the state together with `new_collection_added`. -/
def ensure_collection (st : CatalogState) (target folder : List Char) :
    CatalogState × Bool :=
  if st.collections.any (fun c => c.id == folder) then (st, false)
  else ({ st with collections := st.collections ++ [mk_collection folder target] }, true)

/-- `db.cards.find_one(sort=[('id', -1)])`: the id of a card with maximal
`id`, if any. -/
def last_card_id (cards : List Card) : Option Nat :=
  cards.foldl (fun acc c => match acc with
    | none => some c.id
    | some m => some (max m c.id)) none

/-- Lines 169-170: `(last_card['id'] + 1) if last_card else 0`. -/
def next_card_id (cards : List Card) : Nat :=
  match last_card_id cards with
  | some m => m + 1
  | none => 0

/-- Decimal rendering of the parsed level, as interpolated by the f-string
at line 173 (`{level}` formats the `int`). -/
def levelStr (n : Nat) : List Char := Nat.toDigits 10 n

/-- Line 173: `/cards/{target_directory}/{folder_name}/{level}_{name_without_prefix}.jpg`.
The extension here is hard-coded `.jpg` for every card, animated or not. -/
def base_path (target folder : List Char) (level : Nat) (name : List Char) : List Char :=
  "/cards/".data ++ target ++ "/".data ++ folder ++ "/".data ++
    levelStr level ++ "_".data ++ name ++ ".jpg".data

/-- The card document built at lines 160-187 for one valid file. -/
def mk_card (target folder file : List Char) (nid level : Nat) : Card :=
  { id := nid
    name := name_without_prefix_of (str_lower (splitext file).1)
    level := level
    col := folder
    animated := str_lower (splitext file).2 == ".gif".data
    tags := target
    url := "https://hyejoo.sfo2.digitaloceanspaces.com".data ++
      base_path target folder level (name_without_prefix_of (str_lower (splitext file).1))
    shorturl := "https://cards.hyejoobot.com".data ++
      base_path target folder level (name_without_prefix_of (str_lower (splitext file).1)) }

/-- The card-insertion loop of `update_database` (lines 160-190).  Each
iteration recomputes `next_card_id` from the whole catalog and appends one
card.  A failing `int()` raises; the error carries the partial state already
written (Mongo writes are not rolled back). -/
def insert_cards (st : CatalogState) (target folder : List Char) :
    List (List Char) → Except (Nat × CatalogState) CatalogState
  | [] => Except.ok st
  | file :: rest =>
    match int_parse (first_underscore_segment (str_lower (splitext file).1)) with
    | none => Except.error (2, st)
    | some level =>
      insert_cards
        { st with cards := st.cards ++
            [mk_card target folder file (next_card_id st.cards) level] }
        target folder rest

/-- `automate.py` `update_database`: collection upsert, then the card loop.
On success the function returns `True` (line 192) - not the computed
`new_collection_added` flag. -/
def update_database (st : CatalogState) (target folder : List Char)
    (valid_files : List (List Char)) : Except (Nat × CatalogState) (CatalogState × Bool) :=
  match insert_cards (ensure_collection st target folder).1 target folder valid_files with
  | Except.error e => Except.error e
  | Except.ok st' => Except.ok (st', true)

/-! ## Duplicate-name detection (`check_name_duplicates`, lines 47-63) -/

/-- The set of names occurring more than once, as computed from the
`Counter` at lines 53-56 (listed without repetitions). -/
def name_duplicates (names : List (List Char)) : List (List Char) :=
  (names.filter (fun n => 1 < names.count n)).dedup

/-! ## Directory processor and batch driver (`automate.py` lines 198-305) -/

/-- One input directory: its basename (the collection folder) and the
basenames of the files it contains. -/
structure DirInfo where
  folder : List Char
  files : List (List Char)

/-- `automate.py` `process_directory`: create the remote folder, rename the
local files, upload, then update the catalog.  Any `CardProcessingError`
(and any other exception) is caught and turned into `([], False)`; a catalog
error still leaves the partially written state behind. -/
def process_directory (env : UploadEnv) (st : CatalogState) (target : List Char)
    (dir : DirInfo) : CatalogState × List (List Char) × Bool :=
  match upload_files env (dir.files.map renamedName) with
  | Except.error _ => (st, [], false)
  | Except.ok valid_files =>
    match update_database st target dir.folder valid_files with
    | Except.error e => (e.2, [], false)
    | Except.ok (st', flag) => (st', valid_files, flag)

/-- The per-target loop of `automate.py` `main`: directories are processed
sequentially, each one's outcome appended to the report. -/
def process_batch (env : UploadEnv) (st : CatalogState) (target : List Char) :
    List DirInfo → CatalogState × List (List (List Char) × Bool)
  | [] => (st, [])
  | d :: rest =>
    let r := process_directory env st target d
    let b := process_batch env r.1 target rest
    (b.1, (r.2.1, r.2.2) :: b.2)

/-! ## `promoauto.py` variant -/

/-- Key scheme of `promoauto.py` line 94: `{target}/{folder}/{path}` (the
caller passes `promo_prefix + target_directory` as target). -/
def promo_s3_key (target folder rel : List Char) : List Char :=
  target ++ "/".data ++ folder ++ "/".data ++
    ((splitext rel).1 ++ new_file_ext (splitext rel).2)

/-- `promoauto.py` `upload_file` (lines 78-101): same skip/raise structure as
the automate variant but with the stricter validator. -/
def promo_upload_file (env : UploadEnv) (rel : List Char) : Except Nat (Option (List Char)) :=
  if !promo_is_valid_filename rel then Except.ok none
  else if env.uploadOk rel then Except.ok (some rel)
  else Except.error 1

/-- `promoauto.py` `upload_files` (lines 105-118). -/
def promo_upload_files (env : UploadEnv) : List (List Char) → Except Nat (List (List Char))
  | [] => Except.ok []
  | f :: rest =>
    match promo_upload_file env f with
    | Except.error e => Except.error e
    | Except.ok none => promo_upload_files env rest
    | Except.ok (some p) =>
      match promo_upload_files env rest with
      | Except.error e => Except.error e
      | Except.ok others => Except.ok (p :: others)

/-- A card record of `cards.json` (timestamp omitted; this variant stores no
URLs). -/
structure PCard where
  id : Nat
  name : List Char
  level : Nat
  col : List Char
  animated : Bool
  tags : List Char
deriving DecidableEq

/-- `promoauto.py` line 129:
`max(card["id"] for card in cards_data if "id" in card) + 1 if cards_data else 0`
(every card written by the pipeline has an `id`). -/
def p_next_id (cards : List PCard) : Nat :=
  match cards with
  | [] => 0
  | c :: rest => (rest.foldl (fun m x => max m x.id) c.id) + 1

/-- The card-insertion loop of `update_json_files` (lines 148-176): iterate
the directory listing, keep the files in `valid_files`, skip files whose
extension is outside `ACCEPTED_EXTENSIONS ∪ {".gif"}`, skip files whose
derived name already exists in the same collection, and give each inserted
card the next value of the locally incremented counter. -/
def p_insert_cards (cards : List PCard) (nid : Nat) (target folder : List Char)
    (valid_files : List (List Char)) :
    List (List Char) → Except (Nat × List PCard) (List PCard)
  | [] => Except.ok cards
  | file :: rest =>
    if !valid_files.contains file then p_insert_cards cards nid target folder valid_files rest
    else
      if (ACCEPTED_EXTENSIONS ++ [".gif".data]).contains (str_lower (splitext file).2) then
        match int_parse (first_underscore_segment (str_lower (splitext file).1)) with
        | none => Except.error (2, cards)
        | some level =>
          if cards.any (fun c =>
              c.name == name_without_prefix_of (str_lower (splitext file).1) &&
              c.col == folder) then
            p_insert_cards cards nid target folder valid_files rest
          else
            p_insert_cards (cards ++
              [{ id := nid, name := name_without_prefix_of (str_lower (splitext file).1)
                 level := level, col := folder
                 animated := str_lower (splitext file).2 == ".gif".data
                 tags := target }])
              (nid + 1) target folder valid_files rest
      else p_insert_cards cards nid target folder valid_files rest

/-- `promoauto.py` `update_json_files` (lines 120-184): collection upsert on
the loaded JSON arrays, a single `next_id` computation, then the card loop.
The Python function returns `None`, so its caller's `new_collection_added`
is always `None`; the computed flag only gates a print.  The model returns
the rewritten file contents. -/
def update_json_files (cards : List PCard) (cols : List Collection)
    (target folder : List Char) (files valid_files : List (List Char)) :
    Except (Nat × List PCard) (List PCard × List Collection) :=
  match p_insert_cards cards (p_next_id cards) target folder valid_files files with
  | Except.error e => Except.error e
  | Except.ok cards' => Except.ok (cards',
      if cols.any (fun c => c.id == folder) then cols
      else cols ++ [mk_collection folder target])

/-! ## Regex languages as predicates

Direct readings of the three regular expressions involved, as `re.match`
languages (a match at the start of the string, arbitrary trailing
characters).  Each `∃` picks one way the engine can decompose the string;
the scans above are proved equivalent to these languages below. -/

/-- The language of `re.match(r'\d+_\w+(\_\w+)?\.\w+', s)`
(`automate.py` line 73). -/
def regex_automate_lang (s : List Char) : Prop :=
  ∃ d w g e rest, s = d ++ '_' :: (w ++ g ++ '.' :: (e ++ rest)) ∧
    d ≠ [] ∧ d.all isDigitChar = true ∧
    w ≠ [] ∧ w.all isWordChar = true ∧
    (g = [] ∨ ∃ w2, g = '_' :: w2 ∧ w2 ≠ [] ∧ w2.all isWordChar = true) ∧
    e ≠ [] ∧ e.all isWordChar = true

/-- The language of `re.match(r'\d+_\w+_\w+\.\w+', s)`
(`promoauto.py` line 61). -/
def regex_promo_lang (s : List Char) : Prop :=
  ∃ d w1 w2 e rest, s = d ++ '_' :: (w1 ++ '_' :: w2 ++ '.' :: (e ++ rest)) ∧
    d ≠ [] ∧ d.all isDigitChar = true ∧
    w1 ≠ [] ∧ w1.all isWordChar = true ∧
    w2 ≠ [] ∧ w2.all isWordChar = true ∧
    e ≠ [] ∧ e.all isWordChar = true

/-- The language of the claim pattern `^\d+_\w+(_\w+)?\..+`: same
head as the automate regex but with an arbitrary nonempty tail after the
dot in place of a word-character extension. -/
def spec_claim_lang (s : List Char) : Prop :=
  ∃ d w g tail, s = d ++ '_' :: (w ++ g ++ '.' :: tail) ∧
    d ≠ [] ∧ d.all isDigitChar = true ∧
    w ≠ [] ∧ w.all isWordChar = true ∧
    (g = [] ∨ ∃ w2, g = '_' :: w2 ∧ w2 ≠ [] ∧ w2.all isWordChar = true) ∧
    tail ≠ []

/-- Decidable equality on `Except`, needed to evaluate the model's results
on concrete inputs. -/
instance exceptDecidableEq {e a : Type} [DecidableEq e] [DecidableEq a] :
    DecidableEq (Except e a) := fun x y =>
  match x, y with
  | Except.ok u, Except.ok v =>
    if h : u = v then isTrue (by rw [h]) else isFalse (fun hc => h (Except.ok.inj hc))
  | Except.error u, Except.error v =>
    if h : u = v then isTrue (by rw [h]) else isFalse (fun hc => h (Except.error.inj hc))
  | Except.ok _, Except.error _ => isFalse (fun hc => Except.noConfusion hc)
  | Except.error _, Except.ok _ => isFalse (fun hc => Except.noConfusion hc)

/-! ## Helper lemmas: characters -/

theorem char_eq_iff_toNat {a b : Char} : a = b ↔ a.toNat = b.toNat := by
  constructor
  · intro h; rw [h]
  · intro h
    have h2 := congrArg Char.ofNat h
    rwa [Char.ofNat_toNat, Char.ofNat_toNat] at h2

theorem toNat_ofNat_plus32 (n : Nat) (h1 : 65 ≤ n) (h2 : n ≤ 90) :
    (Char.ofNat (n + 32)).toNat = n + 32 := by
  interval_cases n <;> decide

theorem toLower_toNat (c : Char) :
    (Char.toLower c).toNat = if 65 ≤ c.toNat ∧ c.toNat ≤ 90 then c.toNat + 32 else c.toNat := by
  simp only [Char.toLower, ge_iff_le]
  split_ifs with h
  · exact toNat_ofNat_plus32 c.toNat h.1 h.2
  · rfl

theorem toLower_eq_dot_iff (c : Char) : Char.toLower c = '.' ↔ c = '.' := by
  rw [char_eq_iff_toNat, char_eq_iff_toNat, toLower_toNat]
  have h46 : ('.' : Char).toNat = 46 := by decide
  rw [h46]
  split_ifs with h
  · omega
  · exact Iff.rfl

theorem toLower_eq_space_iff (c : Char) : Char.toLower c = ' ' ↔ c = ' ' := by
  rw [char_eq_iff_toNat, char_eq_iff_toNat, toLower_toNat]
  have h32 : (' ' : Char).toNat = 32 := by decide
  rw [h32]
  split_ifs with h
  · omega
  · exact Iff.rfl

theorem toLower_idem (c : Char) : Char.toLower (Char.toLower c) = Char.toLower c := by
  rw [char_eq_iff_toNat, toLower_toNat, toLower_toNat]
  split_ifs <;> omega

theorem toLower_fix_digit (c : Char) (h : isDigitChar c = true) : Char.toLower c = c := by
  simp only [isDigitChar, Bool.and_eq_true, decide_eq_true_eq] at h
  rw [char_eq_iff_toNat, toLower_toNat]
  split_ifs with h2 <;> omega

/-- The composed pointwise action of `lower` then `replace(' ', '_')`. -/
theorem normchar_eq_dot_iff (c : Char) : replaceSpace (Char.toLower c) = '.' ↔ c = '.' := by
  unfold replaceSpace
  split_ifs with h
  · constructor
    · intro h2; exact absurd h2 (by decide)
    · intro h2
      rw [h2] at h
      rw [show Char.toLower '.' = '.' from by decide] at h
      exact absurd h (by decide)
  · exact toLower_eq_dot_iff c

theorem normchar_idem (c : Char) :
    replaceSpace (Char.toLower (replaceSpace (Char.toLower c))) =
      replaceSpace (Char.toLower c) := by
  by_cases h : Char.toLower c = ' '
  · rw [h]; decide
  · unfold replaceSpace
    rw [if_neg h, toLower_idem, if_neg h]

theorem digit_ne_underscore (c : Char) (h : isDigitChar c = true) : (c != '_') = true := by
  simp only [isDigitChar, Bool.and_eq_true, decide_eq_true_eq] at h
  simp only [bne_iff_ne, ne_eq]
  intro h2
  rw [h2] at h
  exact absurd h (by decide)

/-! ## Helper lemmas: lists -/

theorem takeWhile_append_of_all {p : Char → Bool} {l : List Char} (a : Char) (r : List Char)
    (h1 : l.all p = true) (h2 : p a = false) : (l ++ a :: r).takeWhile p = l := by
  induction l with
  | nil => simp [List.takeWhile, h2]
  | cons x xs ih =>
    simp only [List.all_cons, Bool.and_eq_true] at h1
    simp [List.takeWhile, h1.1, ih h1.2]

theorem dropWhile_append_of_all {p : Char → Bool} {l : List Char} (a : Char) (r : List Char)
    (h1 : l.all p = true) (h2 : p a = false) : (l ++ a :: r).dropWhile p = a :: r := by
  induction l with
  | nil => simp [List.dropWhile, h2]
  | cons x xs ih =>
    simp only [List.all_cons, Bool.and_eq_true] at h1
    simp [List.dropWhile, h1.1, ih h1.2]

theorem mem_split_last {a : Char} {l : List Char} (h : a ∈ l) :
    ∃ l1 l2, l = l1 ++ a :: l2 ∧ a ∉ l2 := by
  induction l with
  | nil => cases h
  | cons x xs ih =>
    by_cases hm : a ∈ xs
    · obtain ⟨l1, l2, he, hn⟩ := ih hm
      exact ⟨x :: l1, l2, by rw [he]; rfl, hn⟩
    · have hx : a = x := by
        rcases List.mem_cons.mp h with h1 | h1
        · exact h1
        · exact absurd h1 hm
      exact ⟨[], xs, by rw [hx]; rfl, hm⟩

/-! ## Helper lemmas: `splitext` -/

theorem extLen_append_dot (st e : List Char) (he : '.' ∉ e) :
    extLen (st ++ '.' :: e) = e.length := by
  unfold extLen
  rw [List.reverse_append, List.reverse_cons, List.append_assoc, List.singleton_append]
  rw [takeWhile_append_of_all '.' st.reverse _ (by decide)]
  · exact List.length_reverse e
  · rw [List.all_eq_true]
    intro x hx
    simp only [bne_iff_ne, ne_eq]
    intro hxe
    exact he (by rw [← hxe]; exact (List.mem_reverse).mp hx)

theorem extLen_no_dot (s : List Char) (h : '.' ∉ s) : extLen s = s.length := by
  unfold extLen
  rw [List.takeWhile_eq_self_iff.mpr, List.length_reverse]
  intro x hx
  simp only [bne_iff_ne, ne_eq]
  intro hxe
  exact h (by rw [← hxe]; exact (List.mem_reverse).mp hx)

theorem splitext_no_dot (s : List Char) (h : '.' ∉ s) : splitext s = (s, []) := by
  unfold splitext
  rw [if_pos (extLen_no_dot s h)]

theorem splitext_split (st e : List Char) (he : '.' ∉ e)
    (hst : st.any (fun c => c != '.') = true) :
    splitext (st ++ '.' :: e) = (st, '.' :: e) := by
  have hlen : (st ++ '.' :: e).length = st.length + 1 + e.length := by
    simp [List.length_append]; omega
  have hext := extLen_append_dot st e he
  have hj : (st ++ '.' :: e).length - extLen (st ++ '.' :: e) - 1 = st.length := by
    rw [hext, hlen]; omega
  unfold splitext
  rw [if_neg (by rw [hext, hlen]; omega), hj]
  rw [List.take_left, List.drop_left]
  rw [if_pos hst]

theorem splitext_alldots (st e : List Char) (he : '.' ∉ e)
    (hst : st.any (fun c => c != '.') = false) :
    splitext (st ++ '.' :: e) = (st ++ '.' :: e, []) := by
  have hlen : (st ++ '.' :: e).length = st.length + 1 + e.length := by
    simp [List.length_append]; omega
  have hext := extLen_append_dot st e he
  have hj : (st ++ '.' :: e).length - extLen (st ++ '.' :: e) - 1 = st.length := by
    rw [hext, hlen]; omega
  unfold splitext
  rw [if_neg (by rw [hext, hlen]; omega), hj]
  rw [List.take_left]
  rw [if_neg (by rw [hst]; exact Bool.false_ne_true)]

/-! ## Helper lemmas: normalization (`rename_files`) -/

theorem map_norm_eq (l : List Char) :
    (l.map Char.toLower).map replaceSpace = l.map (fun c => replaceSpace (Char.toLower c)) := by
  rw [List.map_map]; rfl

theorem dot_mem_map_norm (l : List Char) :
    '.' ∈ l.map (fun c => replaceSpace (Char.toLower c)) ↔ '.' ∈ l := by
  rw [List.mem_map]
  constructor
  · rintro ⟨c, hc, he⟩
    rwa [(normchar_eq_dot_iff c).mp he] at hc
  · intro h
    exact ⟨'.', h, by decide⟩

theorem any_ne_dot_map_norm (l : List Char) :
    (l.map (fun c => replaceSpace (Char.toLower c))).any (fun c => c != '.') =
      l.any (fun c => c != '.') := by
  rw [Bool.eq_iff_iff]
  simp only [List.any_eq_true, List.mem_map]
  constructor
  · rintro ⟨x, ⟨c, hc, rfl⟩, hx⟩
    refine ⟨c, hc, ?_⟩
    simp only [bne_iff_ne, ne_eq] at hx ⊢
    intro h
    exact hx (by rw [h]; decide)
  · rintro ⟨c, hc, hx⟩
    refine ⟨replaceSpace (Char.toLower c), ⟨c, hc, rfl⟩, ?_⟩
    simp only [bne_iff_ne, ne_eq] at hx ⊢
    intro h
    exact hx ((normchar_eq_dot_iff c).mp h)

theorem map_norm_idem (l : List Char) :
    (l.map (fun c => replaceSpace (Char.toLower c))).map
        (fun c => replaceSpace (Char.toLower c)) =
      l.map (fun c => replaceSpace (Char.toLower c)) := by
  induction l with
  | nil => rfl
  | cons x xs ih =>
    simp only [List.map_cons]
    rw [normchar_idem x, ih]

theorem map_norm_of_all_dots (l : List Char) (h : ∀ x ∈ l, x = '.') :
    l.map (fun c => replaceSpace (Char.toLower c)) = l := by
  induction l with
  | nil => rfl
  | cons x xs ih =>
    simp only [List.map_cons]
    rw [h x (List.mem_cons_self x xs)]
    rw [ih (fun y hy => h y (List.mem_cons_of_mem x hy))]
    rfl

theorem renamedName_split (st e : List Char) (he : '.' ∉ e)
    (hst : st.any (fun c => c != '.') = true) :
    renamedName (st ++ '.' :: e) =
      st.map (fun c => replaceSpace (Char.toLower c)) ++ '.' :: e := by
  unfold renamedName
  rw [splitext_split st e he hst, map_norm_eq]

theorem renamedName_no_split (s : List Char) (h : splitext s = (s, [])) :
    renamedName s = s.map (fun c => replaceSpace (Char.toLower c)) := by
  unfold renamedName
  rw [h, map_norm_eq, List.append_nil]

theorem renamedName_idem_aux (s : List Char) :
    renamedName (renamedName s) = renamedName s := by
  by_cases hd : '.' ∈ s
  · obtain ⟨st, e, heq, hne⟩ := mem_split_last hd
    subst heq
    by_cases hany : st.any (fun c => c != '.') = true
    · have e1 := renamedName_split st e hne hany
      rw [e1]
      have hany2 : (st.map (fun c => replaceSpace (Char.toLower c))).any
          (fun c => c != '.') = true := by
        rw [any_ne_dot_map_norm]; exact hany
      rw [renamedName_split _ e hne hany2, map_norm_idem]
    · have hany' : st.any (fun c => c != '.') = false := by
        rcases Bool.eq_false_or_eq_true (st.any (fun c => c != '.')) with h | h
        · exact absurd h hany
        · exact h
      have hdots : ∀ x ∈ st, x = '.' := by
        intro x hx
        by_contra hxn
        have : st.any (fun c => c != '.') = true := by
          rw [List.any_eq_true]
          exact ⟨x, hx, by simp [bne_iff_ne, hxn]⟩
        rw [hany'] at this
        exact absurd this Bool.false_ne_true
      have e1 := renamedName_no_split (st ++ '.' :: e) (splitext_alldots st e hne hany')
      rw [e1]
      have emap : (st ++ '.' :: e).map (fun c => replaceSpace (Char.toLower c)) =
          st ++ '.' :: e.map (fun c => replaceSpace (Char.toLower c)) := by
        rw [List.map_append, List.map_cons, map_norm_of_all_dots st hdots]
        rfl
      rw [emap]
      have hne2 : '.' ∉ e.map (fun c => replaceSpace (Char.toLower c)) := by
        rw [dot_mem_map_norm]; exact hne
      have e2 := renamedName_no_split _ (splitext_alldots st _ hne2 hany')
      rw [e2, List.map_append, List.map_cons, map_norm_of_all_dots st hdots,
        map_norm_idem]
      rfl
  · have e1 := renamedName_no_split s (splitext_no_dot s hd)
    rw [e1]
    have hd2 : '.' ∉ s.map (fun c => replaceSpace (Char.toLower c)) := by
      rw [dot_mem_map_norm]; exact hd
    rw [renamedName_no_split _ (splitext_no_dot _ hd2), map_norm_idem]

/-! ## Helper lemmas: validators -/

theorem all_takeWhile (p : Char → Bool) (l : List Char) : (l.takeWhile p).all p = true := by
  rw [List.all_eq_true]
  intro x hx
  exact List.mem_takeWhile_imp hx

theorem isEmpty_false_of_ne {l : List Char} (h : l ≠ []) : l.isEmpty = false := by
  cases l with
  | nil => exact absurd rfl h
  | cons x xs => rfl

theorem ne_nil_of_isEmpty_false {l : List Char} (h : l.isEmpty = false) : l ≠ [] := by
  cases l with
  | nil => exact absurd h (by decide)
  | cons x xs => exact List.cons_ne_nil x xs

theorem hasUnderscore_of_split (l1 l2 : List Char) (h : l2 ≠ []) :
    hasUnderscoreNotLast (l1 ++ '_' :: l2) = true := by
  induction l1 with
  | nil =>
    cases l2 with
    | nil => exact absurd rfl h
    | cons y ys => simp [hasUnderscoreNotLast]
  | cons x xs ih =>
    cases xs with
    | nil =>
      cases l2 with
      | nil => exact absurd rfl h
      | cons y ys => simp [hasUnderscoreNotLast]
    | cons x' xs' =>
      have h2 : (x :: x' :: xs') ++ '_' :: l2 = x :: (x' :: (xs' ++ '_' :: l2)) := rfl
      rw [h2]
      show ((x == '_') || hasUnderscoreNotLast (x' :: (xs' ++ '_' :: l2))) = true
      have h3 : (x' :: xs') ++ '_' :: l2 = x' :: (xs' ++ '_' :: l2) := rfl
      rw [h3] at ih
      rw [ih]
      exact Bool.or_true _

theorem split_of_hasUnderscore :
    ∀ (l : List Char), hasUnderscoreNotLast l = true →
      ∃ l1 l2, l = l1 ++ '_' :: l2 ∧ l2 ≠ []
  | [], h => absurd h (by decide)
  | [x], h => absurd h (by simp [hasUnderscoreNotLast])
  | x :: y :: rest, h => by
    have h2 : ((x == '_') || hasUnderscoreNotLast (y :: rest)) = true := h
    rcases Bool.or_eq_true_iff.mp h2 with h3 | h3
    · refine ⟨[], y :: rest, ?_, List.cons_ne_nil y rest⟩
      rw [show x = '_' from by simpa using h3]
      rfl
    · obtain ⟨l1, l2, he, hn⟩ := split_of_hasUnderscore (y :: rest) h3
      exact ⟨x :: l1, l2, by rw [List.cons_append, ← he], hn⟩

theorem is_valid_filename_parts (d W : List Char) (c : Char) (t : List Char)
    (hd : d ≠ []) (hdall : d.all isDigitChar = true)
    (hW : W ≠ []) (hWall : W.all isWordChar = true)
    (hc : isWordChar c = true) :
    is_valid_filename (d ++ '_' :: (W ++ '.' :: c :: t)) = true := by
  unfold is_valid_filename
  rw [takeWhile_append_of_all '_' (W ++ '.' :: c :: t) hdall (by decide),
    dropWhile_append_of_all '_' (W ++ '.' :: c :: t) hdall (by decide),
    isEmpty_false_of_ne hd]
  simp only [Bool.false_eq_true, if_false]
  rw [takeWhile_append_of_all '.' (c :: t) hWall (by decide),
    dropWhile_append_of_all '.' (c :: t) hWall (by decide),
    isEmpty_false_of_ne hW]
  simp [hc]

theorem is_valid_filename_iff (s : List Char) :
    is_valid_filename s = true ↔ regex_automate_lang s := by
  constructor
  · intro h
    unfold is_valid_filename at h
    split at h
    · exact absurd h (by decide)
    · rename_i hd
      split at h
      · rename_i r heq
        split at h
        · exact absurd h (by decide)
        · rename_i hw
          split at h
          · rename_i c t heq2
            refine ⟨s.takeWhile isDigitChar, r.takeWhile isWordChar, [], [c], t,
              ?_, ?_, all_takeWhile _ _, ?_, all_takeWhile _ _, Or.inl rfl,
              List.cons_ne_nil c [], by simp [h]⟩
            · conv_lhs => rw [← List.takeWhile_append_dropWhile isDigitChar s]
              rw [heq]
              congr 1
              conv_lhs => rw [← List.takeWhile_append_dropWhile isWordChar r]
              rw [heq2]
              simp
            · exact ne_nil_of_isEmpty_false (Bool.eq_false_iff.mpr hd)
            · exact ne_nil_of_isEmpty_false (Bool.eq_false_iff.mpr hw)
          · exact absurd h (by decide)
      · exact absurd h (by decide)
  · rintro ⟨d, w, g, e, rest, hs, hdne, hdall, hwne, hwall, hg, hene, heall⟩
    cases e with
    | nil => exact absurd rfl hene
    | cons c et =>
      have hWall : (w ++ g).all isWordChar = true := by
        rw [List.all_append]
        rcases hg with hg | ⟨w2, hg2, _, hw2all⟩
        · subst hg; simp [hwall]
        · subst hg2
          simp only [List.all_cons, hwall, hw2all, Bool.and_true, Bool.true_and]
          decide
      have hWne : w ++ g ≠ [] := fun hcontra => hwne (List.append_eq_nil.mp hcontra).1
      have hceq : isWordChar c = true := by
        simp only [List.all_cons, Bool.and_eq_true] at heall
        exact heall.1
      have hs2 : s = d ++ '_' :: ((w ++ g) ++ '.' :: c :: (et ++ rest)) := by
        rw [hs]
        simp [List.append_assoc]
      rw [hs2]
      exact is_valid_filename_parts d (w ++ g) c (et ++ rest) hdne hdall hWne hWall hceq

theorem promo_valid_parts (d W1 W2 : List Char) (c : Char) (t : List Char)
    (hd : d ≠ []) (hdall : d.all isDigitChar = true)
    (hW1 : W1 ≠ []) (hW1all : W1.all isWordChar = true)
    (hW2 : W2 ≠ []) (hW2all : W2.all isWordChar = true)
    (hc : isWordChar c = true) :
    promo_is_valid_filename (d ++ '_' :: ((W1 ++ '_' :: W2) ++ '.' :: c :: t)) = true := by
  have hWall : (W1 ++ '_' :: W2).all isWordChar = true := by
    rw [List.all_append]
    simp only [List.all_cons, hW1all, hW2all, Bool.and_true, Bool.true_and]
    decide
  unfold promo_is_valid_filename
  rw [takeWhile_append_of_all '_' ((W1 ++ '_' :: W2) ++ '.' :: c :: t) hdall (by decide),
    dropWhile_append_of_all '_' ((W1 ++ '_' :: W2) ++ '.' :: c :: t) hdall (by decide),
    isEmpty_false_of_ne hd]
  simp only [Bool.false_eq_true, if_false]
  rw [takeWhile_append_of_all '.' (c :: t) hWall (by decide),
    dropWhile_append_of_all '.' (c :: t) hWall (by decide)]
  cases W1 with
  | nil => exact absurd rfl hW1
  | cons a w1t =>
    simp only [List.cons_append]
    rw [hasUnderscore_of_split w1t W2 hW2]
    simp [hc]

theorem promo_is_valid_filename_iff (s : List Char) :
    promo_is_valid_filename s = true ↔ regex_promo_lang s := by
  constructor
  · intro h
    unfold promo_is_valid_filename at h
    split at h
    · exact absurd h (by decide)
    · rename_i hd
      split at h
      · rename_i r heq
        obtain ⟨h1, h2⟩ := Bool.and_eq_true_iff.mp h
        have hwal := all_takeWhile isWordChar r
        split at h1
        · exact absurd h1 (by decide)
        · rename_i a wrest hw
          obtain ⟨l1, l2, hsplit, hl2⟩ := split_of_hasUnderscore wrest h1
          split at h2
          · rename_i c t heq2
            rw [hw, hsplit] at hwal
            have haw : isWordChar a = true := by
              simp only [List.all_cons, Bool.and_eq_true] at hwal
              exact hwal.1
            have hl1w : l1.all isWordChar = true := by
              simp only [List.all_cons, List.all_append, Bool.and_eq_true] at hwal
              rw [List.all_eq_true]
              exact fun x hx => (List.all_eq_true.mp hwal.2.1) x hx
            have hl2w : l2.all isWordChar = true := by
              simp only [List.all_cons, List.all_append, Bool.and_eq_true] at hwal
              rw [List.all_eq_true]
              exact fun x hx => (List.all_eq_true.mp hwal.2.2.2) x hx
            refine ⟨s.takeWhile isDigitChar, a :: l1, l2, [c], t, ?_,
              ne_nil_of_isEmpty_false (Bool.eq_false_iff.mpr hd), all_takeWhile _ _,
              List.cons_ne_nil a l1, ?_, hl2, hl2w, List.cons_ne_nil c [], by simp [h2]⟩
            · conv_lhs => rw [← List.takeWhile_append_dropWhile isDigitChar s]
              rw [heq]
              congr 1
              conv_lhs => rw [← List.takeWhile_append_dropWhile isWordChar r]
              rw [heq2, hw, hsplit]
              simp
            · simp only [List.all_cons, Bool.and_eq_true]
              exact ⟨haw, hl1w⟩
          · exact absurd h2 (by decide)
      · exact absurd h (by decide)
  · rintro ⟨d, w1, w2, e, rest, hs, hdne, hdall, hw1ne, hw1all, hw2ne, hw2all, hene, heall⟩
    cases e with
    | nil => exact absurd rfl hene
    | cons c et =>
      have hceq : isWordChar c = true := by
        simp only [List.all_cons, Bool.and_eq_true] at heall
        exact heall.1
      have hs2 : s = d ++ '_' :: ((w1 ++ '_' :: w2) ++ '.' :: c :: (et ++ rest)) := by
        rw [hs]
        simp [List.append_assoc]
      rw [hs2]
      exact promo_valid_parts d w1 w2 c (et ++ rest) hdne hdall hw1ne hw1all hw2ne hw2all hceq

theorem promo_valid_imp_valid (s : List Char)
    (h : promo_is_valid_filename s = true) : is_valid_filename s = true := by
  rw [promo_is_valid_filename_iff] at h
  rw [is_valid_filename_iff]
  obtain ⟨d, w1, w2, e, rest, hs, hdne, hdall, hw1ne, hw1all, hw2ne, hw2all, hene, heall⟩ := h
  exact ⟨d, w1, '_' :: w2, e, rest, hs, hdne, hdall, hw1ne, hw1all,
    Or.inr ⟨w2, rfl, hw2ne, hw2all⟩, hene, heall⟩

theorem not_valid_of_no_digit (s : List Char) (h : s.takeWhile isDigitChar = []) :
    is_valid_filename s = false := by
  unfold is_valid_filename
  rw [h]
  rfl

theorem not_valid_of_no_underscore (s : List Char) (h : '_' ∉ s) :
    is_valid_filename s = false := by
  cases hv : is_valid_filename s with
  | false => rfl
  | true =>
    exfalso
    obtain ⟨d, w, g, e, rest, hs, _⟩ := (is_valid_filename_iff s).mp hv
    exact h (by rw [hs]; exact List.mem_append_right d (List.mem_cons_self _ _))

/-! ## Helper lemmas: level parsing on validated names -/

theorem str_lower_digits (l : List Char) (h : l.all isDigitChar = true) :
    str_lower l = l := by
  induction l with
  | nil => rfl
  | cons x xs ih =>
    simp only [List.all_cons, Bool.and_eq_true] at h
    simp only [str_lower, List.map_cons]
    rw [toLower_fix_digit x h.1]
    have := ih h.2
    simp only [str_lower] at this
    rw [this]

theorem valid_stem_shape (s : List Char) (h : is_valid_filename s = true) :
    ∃ d t, (splitext s).1 = d ++ '_' :: t ∧ d ≠ [] ∧ d.all isDigitChar = true := by
  obtain ⟨d, w, g, e, rest, hs, hdne, hdall, hwne, hwall, hg, hene, heall⟩ :=
    (is_valid_filename_iff s).mp h
  cases e with
  | nil => exact absurd rfl hene
  | cons c et =>
    have hs2 : s = d ++ '_' :: ((w ++ g) ++ '.' :: c :: (et ++ rest)) := by
      rw [hs]; simp [List.append_assoc]
    have hdot : '.' ∈ s := by
      rw [hs2]
      refine List.mem_append_right d ?_
      refine List.mem_cons_of_mem '_' ?_
      exact List.mem_append_right _ (List.mem_cons_self _ _)
    obtain ⟨l1, l2, hsl, hnd⟩ := mem_split_last hdot
    have hl1 : ∃ t, l1 = d ++ '_' :: t := by
      have heq : d ++ '_' :: ((w ++ g) ++ '.' :: c :: (et ++ rest)) = l1 ++ '.' :: l2 := by
        rw [← hs2, hsl]
      rcases List.append_eq_append_iff.mp heq with ⟨a, ha1, ha2⟩ | ⟨a, ha1, ha2⟩
      · -- l1 = d ++ a and '_' :: _ = a ++ '.' :: l2
        cases a with
        | nil =>
          simp only [List.nil_append] at ha2
          exact absurd (List.head_eq_of_cons_eq ha2) (by decide)
        | cons x a' =>
          have hx : '_' = x := List.head_eq_of_cons_eq ha2
          refine ⟨a', ?_⟩
          rw [ha1, ← hx]
      · -- d = l1 ++ a and '.' :: l2 = a ++ '_' :: _
        cases a with
        | nil =>
          simp only [List.nil_append] at ha2
          exact absurd (List.head_eq_of_cons_eq ha2) (by decide)
        | cons x a' =>
          exfalso
          have hx : '.' = x := List.head_eq_of_cons_eq ha2
          have hmem : x ∈ d := by
            rw [ha1]
            exact List.mem_append_right l1 (List.mem_cons_self _ _)
          have := (List.all_eq_true.mp hdall) x hmem
          rw [← hx] at this
          exact absurd this (by decide)
    obtain ⟨t, ht⟩ := hl1
    have hany : l1.any (fun c => c != '.') = true := by
      rw [List.any_eq_true]
      refine ⟨'_', ?_, by decide⟩
      rw [ht]
      exact List.mem_append_right d (List.mem_cons_self _ _)
    refine ⟨d, t, ?_, hdne, hdall⟩
    rw [hsl, splitext_split l1 l2 hnd hany, ht]

theorem parse_level_of_valid (s : List Char) (h : is_valid_filename s = true) :
    ∃ n, int_parse (first_underscore_segment (str_lower (splitext s).1)) = some n := by
  obtain ⟨d, t, hst, hdne, hdall⟩ := valid_stem_shape s h
  have hlow : str_lower (splitext s).1 = d ++ '_' :: str_lower t := by
    rw [hst]
    simp only [str_lower, List.map_append, List.map_cons]
    rw [show Char.toLower '_' = '_' from by decide]
    have := str_lower_digits d hdall
    simp only [str_lower] at this
    rw [this]
  have hseg : first_underscore_segment (d ++ '_' :: str_lower t) = d := by
    unfold first_underscore_segment
    refine takeWhile_append_of_all '_' (str_lower t) ?_ (by decide)
    rw [List.all_eq_true]
    intro x hx
    exact digit_ne_underscore x ((List.all_eq_true.mp hdall) x hx)
  rw [hlow, hseg]
  unfold int_parse
  rw [isEmpty_false_of_ne hdne, hdall]
  exact ⟨_, rfl⟩

/-! ## Helper lemmas: card-ID assignment -/

theorem foldl_max_spec (l : List Nat) : ∀ b : Nat,
    b ≤ l.foldl max b ∧ (∀ x ∈ l, x ≤ l.foldl max b) ∧
      (l.foldl max b = b ∨ l.foldl max b ∈ l) := by
  induction l with
  | nil => exact fun b => ⟨Nat.le_refl b, fun x hx => absurd hx (List.not_mem_nil x), Or.inl rfl⟩
  | cons y ys ih =>
    intro b
    simp only [List.foldl_cons]
    obtain ⟨h1, h2, h3⟩ := ih (max b y)
    refine ⟨Nat.le_trans (Nat.le_max_left b y) h1, ?_, ?_⟩
    · intro x hx
      rcases List.mem_cons.mp hx with hx | hx
      · rw [hx]; exact Nat.le_trans (Nat.le_max_right b y) h1
      · exact h2 x hx
    · rcases h3 with h3 | h3
      · rcases Nat.le_total y b with hb | hb
        · exact Or.inl (by rw [h3, Nat.max_eq_left hb])
        · refine Or.inr ?_
          rw [h3, Nat.max_eq_right hb]
          exact List.mem_cons_self y ys
      · exact Or.inr (List.mem_cons_of_mem y h3)

theorem last_card_id_go (rest : List Card) : ∀ m : Nat,
    rest.foldl (fun acc c => match acc with
      | none => some c.id
      | some m => some (max m c.id)) (some m) =
      some (rest.foldl (fun m x => max m x.id) m) := by
  induction rest with
  | nil => intro m; rfl
  | cons c cs ih => intro m; exact ih (max m c.id)

theorem last_card_id_cons (c : Card) (rest : List Card) :
    last_card_id (c :: rest) = some (rest.foldl (fun m x => max m x.id) c.id) := by
  unfold last_card_id
  rw [List.foldl_cons]
  exact last_card_id_go rest c.id

theorem next_card_id_max (cards : List Card) (h : cards ≠ []) :
    ∃ m, m ∈ cards.map Card.id ∧ (∀ i ∈ cards.map Card.id, i ≤ m) ∧
      next_card_id cards = m + 1 := by
  cases cards with
  | nil => exact absurd rfl h
  | cons c rest =>
    have hfold : rest.foldl (fun m x => max m x.id) c.id =
        (rest.map Card.id).foldl max c.id := by
      rw [List.foldl_map]
    obtain ⟨h1, h2, h3⟩ := foldl_max_spec (rest.map Card.id) c.id
    refine ⟨(rest.map Card.id).foldl max c.id, ?_, ?_, ?_⟩
    · rcases h3 with h3 | h3
      · rw [h3]; exact List.mem_cons_self _ _
      · rw [List.map_cons]; exact List.mem_cons_of_mem _ h3
    · intro i hi
      rcases List.mem_cons.mp (List.map_cons Card.id c rest ▸ hi) with hi | hi
      · exact hi ▸ h1
      · exact h2 i hi
    · unfold next_card_id
      rw [last_card_id_cons, hfold]

theorem next_card_id_of_range (cards : List Card) (k : Nat)
    (h : cards.map Card.id = List.range k) : next_card_id cards = k := by
  cases hc : cards with
  | nil =>
    subst hc
    simp only [List.map_nil] at h
    have : k = 0 := by
      by_contra hk
      have : 0 ∈ List.range k := List.mem_range.mpr (Nat.pos_of_ne_zero hk)
      rw [← h] at this
      exact absurd this (List.not_mem_nil 0)
    rw [this]
    rfl
  | cons c rest =>
    subst hc
    obtain ⟨m, hmem, hbound, heq⟩ := next_card_id_max (c :: rest) (List.cons_ne_nil c rest)
    have hk : 0 < k := by
      by_contra hk
      have h0 : k = 0 := Nat.eq_zero_of_not_pos hk
      rw [h0, List.range_zero] at h
      exact absurd h (by simp)
    have hm1 : m < k := List.mem_range.mp (h ▸ hmem)
    have hm2 : k - 1 ≤ m := by
      refine hbound (k - 1) ?_
      rw [h]
      exact List.mem_range.mpr (by omega)
    rw [heq]
    omega

theorem insert_cards_ok (target folder : List Char) :
    ∀ (files : List (List Char)) (st : CatalogState) (k : Nat),
      files.all is_valid_filename = true →
      st.cards.map Card.id = List.range k →
      ∃ st', insert_cards st target folder files = Except.ok st' ∧
        st'.cards.map Card.id = List.range (k + files.length) ∧
        st'.collections = st.collections := by
  intro files
  induction files with
  | nil =>
    intro st k _ hmap
    exact ⟨st, rfl, by simpa using hmap, rfl⟩
  | cons f rest ih =>
    intro st k hall hmap
    simp only [List.all_cons, Bool.and_eq_true] at hall
    obtain ⟨n, hp⟩ := parse_level_of_valid f hall.1
    simp only [insert_cards]
    rw [hp]
    have hnext : next_card_id st.cards = k := next_card_id_of_range st.cards k hmap
    have hmap' : ({ st with cards := st.cards ++
        [mk_card target folder f (next_card_id st.cards) n] } :
        CatalogState).cards.map Card.id = List.range (k + 1) := by
      simp only [List.map_append, hmap, hnext]
      rw [List.range_succ]
      rfl
    obtain ⟨st', hok, hmap'', hcols⟩ := ih _ (k + 1) hall.2 hmap'
    refine ⟨st', hok, ?_, hcols⟩
    rw [hmap'']
    congr 1
    simp [List.length_cons]
    omega

theorem ensure_collection_cards (st : CatalogState) (target folder : List Char) :
    (ensure_collection st target folder).1.cards = st.cards := by
  unfold ensure_collection
  split_ifs <;> rfl

theorem update_database_from_empty (target folder : List Char)
    (files : List (List Char)) (cols : List Collection)
    (hall : files.all is_valid_filename = true) :
    ∃ st', update_database ⟨cols, []⟩ target folder files = Except.ok (st', true) ∧
      st'.cards.map Card.id = List.range files.length := by
  have hmap : ((ensure_collection ⟨cols, []⟩ target folder).1).cards.map Card.id =
      List.range 0 := by
    rw [ensure_collection_cards]
    rfl
  obtain ⟨st', hok, hmap', _⟩ :=
    insert_cards_ok target folder files (ensure_collection ⟨cols, []⟩ target folder).1 0
      hall hmap
  refine ⟨st', ?_, by simpa using hmap'⟩
  unfold update_database
  rw [hok]

theorem p_next_id_max (cards : List PCard) (h : cards ≠ []) :
    ∃ m, m ∈ cards.map PCard.id ∧ (∀ i ∈ cards.map PCard.id, i ≤ m) ∧
      p_next_id cards = m + 1 := by
  cases cards with
  | nil => exact absurd rfl h
  | cons c rest =>
    have hfold : rest.foldl (fun m x => max m x.id) c.id =
        (rest.map PCard.id).foldl max c.id := by
      rw [List.foldl_map]
    obtain ⟨h1, h2, h3⟩ := foldl_max_spec (rest.map PCard.id) c.id
    refine ⟨(rest.map PCard.id).foldl max c.id, ?_, ?_, ?_⟩
    · rcases h3 with h3 | h3
      · rw [h3]; exact List.mem_cons_self _ _
      · rw [List.map_cons]; exact List.mem_cons_of_mem _ h3
    · intro i hi
      rcases List.mem_cons.mp (List.map_cons PCard.id c rest ▸ hi) with hi | hi
      · exact hi ▸ h1
      · exact h2 i hi
    · show rest.foldl (fun m x => max m x.id) c.id + 1 = _
      rw [hfold]

theorem p_insert_cards_ok (target folder : List Char) (valid_files : List (List Char)) :
    ∀ (files : List (List Char)) (cards : List PCard) (nid : Nat),
      files.all promo_is_valid_filename = true →
      cards.map PCard.id = List.range nid →
      ∃ cards', p_insert_cards cards nid target folder valid_files files = Except.ok cards' ∧
        cards'.map PCard.id = List.range cards'.length := by
  intro files
  induction files with
  | nil =>
    intro cards nid _ hmap
    have hlen : cards.length = nid := by
      have := congrArg List.length hmap
      simpa using this
    exact ⟨cards, rfl, by rw [hmap, hlen]⟩
  | cons f rest ih =>
    intro cards nid hall hmap
    simp only [List.all_cons, Bool.and_eq_true] at hall
    simp only [p_insert_cards]
    by_cases hc : (!valid_files.contains f) = true
    · rw [if_pos hc]
      exact ih cards nid hall.2 hmap
    · rw [if_neg hc]
      by_cases he : ((ACCEPTED_EXTENSIONS ++ [".gif".data]).contains
          (str_lower (splitext f).2)) = true
      · rw [if_pos he]
        obtain ⟨n, hp⟩ := parse_level_of_valid f (promo_valid_imp_valid f hall.1)
        simp only [hp]
        by_cases hdup : (cards.any (fun c =>
            c.name == name_without_prefix_of (str_lower (splitext f).1) &&
            c.col == folder)) = true
        · rw [if_pos hdup]
          exact ih cards nid hall.2 hmap
        · rw [if_neg hdup]
          refine ih _ (nid + 1) hall.2 ?_
          simp only [List.map_append, hmap, List.map_cons, List.map_nil]
          rw [List.range_succ]
      · rw [if_neg he]
        exact ih cards nid hall.2 hmap

theorem update_json_files_from_empty (target folder : List Char)
    (files valid_files : List (List Char)) (cols : List Collection)
    (hall : files.all promo_is_valid_filename = true) :
    ∃ cards' cols',
      update_json_files [] cols target folder files valid_files =
        Except.ok (cards', cols') ∧
      cards'.map PCard.id = List.range cards'.length := by
  obtain ⟨cards', hok, hmap⟩ :=
    p_insert_cards_ok target folder valid_files files [] 0 hall rfl
  refine ⟨cards', (if cols.any (fun c => c.id == folder) then cols
    else cols ++ [mk_collection folder target]), ?_, hmap⟩
  unfold update_json_files
  have h0 : p_next_id ([] : List PCard) = 0 := rfl
  rw [h0, hok]

/-! ## Helper lemmas: uploader and directory processing -/

theorem upload_file_invalid (env : UploadEnv) (f : List Char)
    (h : is_valid_filename f = false) : upload_file env f = Except.ok none := by
  unfold upload_file
  rw [h]
  rfl

theorem upload_file_valid_ok (env : UploadEnv) (f : List Char)
    (hv : is_valid_filename f = true) (hok : env.uploadOk f = true) :
    upload_file env f = Except.ok (some f) := by
  unfold upload_file
  rw [hv, hok]
  rfl

theorem upload_file_valid_fail (env : UploadEnv) (f : List Char)
    (hv : is_valid_filename f = true) (hok : env.uploadOk f = false) :
    upload_file env f = Except.error 1 := by
  unfold upload_file
  rw [hv, hok]
  rfl

theorem upload_file_error_code (env : UploadEnv) (f : List Char) (e : Nat)
    (h : upload_file env f = Except.error e) : e = 1 := by
  unfold upload_file at h
  split at h
  · exact absurd h (by simp)
  · split at h
    · exact absurd h (by simp)
    · exact (Except.error.inj h).symm

theorem upload_files_error (env : UploadEnv) :
    ∀ (files : List (List Char)) (f : List Char), f ∈ files →
      is_valid_filename f = true → env.uploadOk f = false →
      upload_files env files = Except.error 1 := by
  intro files
  induction files with
  | nil => intro f hf; cases hf
  | cons g rest ih =>
    intro f hf hv hu
    rcases List.mem_cons.mp hf with hf | hf
    · subst hf
      simp only [upload_files]
      rw [upload_file_valid_fail env f hv hu]
    · simp only [upload_files]
      cases hg : upload_file env g with
      | error e =>
        rw [upload_file_error_code env g e hg]
      | ok r =>
        cases r with
        | none => exact ih f hf hv hu
        | some p => rw [ih f hf hv hu]

theorem upload_files_skip_invalid (env : UploadEnv) (f : List Char)
    (h : is_valid_filename f = false) :
    ∀ l1 l2, upload_files env (l1 ++ f :: l2) = upload_files env (l1 ++ l2) := by
  intro l1
  induction l1 with
  | nil =>
    intro l2
    simp only [List.nil_append, upload_files]
    rw [upload_file_invalid env f h]
  | cons g gs ih =>
    intro l2
    simp only [List.cons_append, upload_files]
    cases hg : upload_file env g with
    | error e => rfl
    | ok r =>
      cases r with
      | none => exact ih l2
      | some p =>
        exact congrArg (fun x => match x with
          | Except.error e => Except.error e
          | Except.ok others => Except.ok (p :: others)) (ih l2)

theorem promo_upload_file_invalid (env : UploadEnv) (f : List Char)
    (h : promo_is_valid_filename f = false) :
    promo_upload_file env f = Except.ok none := by
  unfold promo_upload_file
  rw [h]
  rfl

theorem promo_upload_file_valid_ok (env : UploadEnv) (f : List Char)
    (hv : promo_is_valid_filename f = true) (hok : env.uploadOk f = true) :
    promo_upload_file env f = Except.ok (some f) := by
  unfold promo_upload_file
  rw [hv, hok]
  rfl

theorem promo_upload_files_skip_invalid (env : UploadEnv) (f : List Char)
    (h : promo_is_valid_filename f = false) :
    ∀ l1 l2, promo_upload_files env (l1 ++ f :: l2) =
      promo_upload_files env (l1 ++ l2) := by
  intro l1
  induction l1 with
  | nil =>
    intro l2
    simp only [List.nil_append, promo_upload_files]
    rw [promo_upload_file_invalid env f h]
  | cons g gs ih =>
    intro l2
    simp only [List.cons_append, promo_upload_files]
    cases hg : promo_upload_file env g with
    | error e => rfl
    | ok r =>
      cases r with
      | none => exact ih l2
      | some p =>
        exact congrArg (fun x => match x with
          | Except.error e => Except.error e
          | Except.ok others => Except.ok (p :: others)) (ih l2)

theorem process_directory_upload_fail (env : UploadEnv) (st : CatalogState)
    (target : List Char) (dir : DirInfo) (f : List Char)
    (hf : f ∈ dir.files) (hv : is_valid_filename (renamedName f) = true)
    (hu : env.uploadOk (renamedName f) = false) :
    process_directory env st target dir = (st, [], false) := by
  have herr : upload_files env (dir.files.map renamedName) = Except.error 1 :=
    upload_files_error env _ (renamedName f) (List.mem_map_of_mem renamedName hf) hv hu
  unfold process_directory
  rw [herr]

theorem process_batch_cons (env : UploadEnv) (st : CatalogState) (target : List Char)
    (d : DirInfo) (rest : List DirInfo) :
    process_batch env st target (d :: rest) =
      ((process_batch env (process_directory env st target d).1 target rest).1,
       ((process_directory env st target d).2.1,
         (process_directory env st target d).2.2) ::
         (process_batch env (process_directory env st target d).1 target rest).2) := rfl

/-! ## Helper lemmas: extensions and URLs -/

theorem new_file_ext_gif (e : List Char) (h : str_lower e = ".gif".data) :
    new_file_ext e = e := by
  unfold new_file_ext
  rw [if_pos h]

theorem new_file_ext_other (e : List Char) (h : str_lower e ≠ ".gif".data) :
    new_file_ext e = ".jpg".data := by
  unfold new_file_ext
  rw [if_neg h]

theorem content_type_other (e : List Char) (h : str_lower e ≠ ".gif".data) :
    content_type_of e = "image/jpeg".data := by
  unfold content_type_of
  rw [if_neg h]

theorem base_path_jpg (target folder : List Char) (level : Nat) (name : List Char) :
    ∃ a, base_path target folder level name = a ++ ".jpg".data := by
  refine ⟨"/cards/".data ++ target ++ "/".data ++ folder ++ "/".data ++
    levelStr level ++ "_".data ++ name, ?_⟩
  unfold base_path
  simp [List.append_assoc]

theorem mk_card_url_jpg (target folder file : List Char) (nid level : Nat) :
    (∃ a, (mk_card target folder file nid level).url = a ++ ".jpg".data) ∧
    (∃ a, (mk_card target folder file nid level).shorturl = a ++ ".jpg".data) := by
  obtain ⟨a, ha⟩ := base_path_jpg target folder level
    (name_without_prefix_of (str_lower (splitext file).1))
  constructor
  · refine ⟨"https://hyejoo.sfo2.digitaloceanspaces.com".data ++ a, ?_⟩
    show "https://hyejoo.sfo2.digitaloceanspaces.com".data ++
      base_path target folder level (name_without_prefix_of (str_lower (splitext file).1)) = _
    rw [ha, List.append_assoc]
  · refine ⟨"https://cards.hyejoobot.com".data ++ a, ?_⟩
    show "https://cards.hyejoobot.com".data ++
      base_path target folder level (name_without_prefix_of (str_lower (splitext file).1)) = _
    rw [ha, List.append_assoc]

theorem level_segment_eq (s : List Char) (h : is_valid_filename s = true) :
    ∃ d, first_underscore_segment (str_lower (splitext s).1) = d ∧ d ≠ [] ∧
      d.all isDigitChar = true := by
  obtain ⟨d, t, hst, hdne, hdall⟩ := valid_stem_shape s h
  have hlow : str_lower (splitext s).1 = d ++ '_' :: str_lower t := by
    rw [hst]
    simp only [str_lower, List.map_append, List.map_cons]
    rw [show Char.toLower '_' = '_' from by decide]
    have := str_lower_digits d hdall
    simp only [str_lower] at this
    rw [this]
  have hseg : first_underscore_segment (d ++ '_' :: str_lower t) = d := by
    unfold first_underscore_segment
    refine takeWhile_append_of_all '_' (str_lower t) ?_ (by decide)
    rw [List.all_eq_true]
    intro x hx
    exact digit_ne_underscore x ((List.all_eq_true.mp hdall) x hx)
  rw [hlow, hseg]
  exact ⟨d, rfl, hdne, hdall⟩

/-! ## Claim theorems -/

/-- C1: the next card ID before an insertion is `max(existing IDs) + 1`, or `0`
when the catalog is empty, in both backends; inserting a batch of validly
named files into an empty catalog assigns the IDs `0..N-1` in insertion
order, strictly increasing and gap-free (in the JSON variant, `N` is the
number of cards actually inserted). -/
theorem claim_C1 :
    (next_card_id [] = 0) ∧
    (∀ cards : List Card, cards ≠ [] →
      ∃ m, m ∈ cards.map Card.id ∧ (∀ i ∈ cards.map Card.id, i ≤ m) ∧
        next_card_id cards = m + 1) ∧
    (∀ (target folder : List Char) (files : List (List Char)) (cols : List Collection),
      files.all is_valid_filename = true →
      ∃ st', update_database ⟨cols, []⟩ target folder files = Except.ok (st', true) ∧
        st'.cards.map Card.id = List.range files.length) ∧
    (p_next_id [] = 0) ∧
    (∀ cards : List PCard, cards ≠ [] →
      ∃ m, m ∈ cards.map PCard.id ∧ (∀ i ∈ cards.map PCard.id, i ≤ m) ∧
        p_next_id cards = m + 1) ∧
    (∀ (target folder : List Char) (files valid_files : List (List Char))
        (cols : List Collection),
      files.all promo_is_valid_filename = true →
      ∃ cards' cols', update_json_files [] cols target folder files valid_files =
          Except.ok (cards', cols') ∧
        cards'.map PCard.id = List.range cards'.length) :=
  ⟨rfl, next_card_id_max, update_database_from_empty, rfl, p_next_id_max,
    update_json_files_from_empty⟩

/-- Witness for C1 at concrete inputs. -/
theorem claim_C1_witness :
    (∃ st', update_database ⟨[], []⟩ "girlgroups".data "col".data
        ["1_a.jpg".data, "2_b.jpg".data] = Except.ok (st', true) ∧
      st'.cards.map Card.id = List.range (["1_a.jpg".data, "2_b.jpg".data].length)) ∧
    (∃ cards' cols', update_json_files [] [] "girlgroups".data "col".data
        ["1_a_b.jpg".data] ["1_a_b.jpg".data] = Except.ok (cards', cols') ∧
      cards'.map PCard.id = List.range cards'.length) :=
  ⟨claim_C1.2.2.1 "girlgroups".data "col".data ["1_a.jpg".data, "2_b.jpg".data] []
      (by decide),
   claim_C1.2.2.2.2.2 "girlgroups".data "col".data ["1_a_b.jpg".data]
      ["1_a_b.jpg".data] [] (by decide)⟩

/-- C2 counterexample: for the animated source file `1_abc.gif` the stored
object key keeps `.gif`, but the catalog URL built by `update_database`
(line 173 hard-codes `.jpg`) ends in `.jpg` - the gif extension is NOT
retained in the catalog URLs, refuting the claim at this input. -/
theorem claim_C2_counterexample :
    s3_key "girlgroups".data "col".data "1_abc.gif".data =
      "cards/girlgroups/col/1_abc.gif".data ∧
    (update_database ⟨[], []⟩ "girlgroups".data "col".data
        ["1_abc.gif".data]).toOption.map (fun x => x.1.cards.map Card.url) =
      some ["https://hyejoo.sfo2.digitaloceanspaces.com/cards/girlgroups/col/1_abc.jpg".data] ∧
    (update_database ⟨[], []⟩ "girlgroups".data "col".data
        ["1_abc.gif".data]).toOption.map (fun x => x.1.cards.map Card.animated) =
      some [true] := by
  decide

/-- C2 (amended): the gif extension is retained in the stored object key
(and every other extension is rewritten to `.jpg` there, with content type
`image/jpeg`), but the catalog `url` and `shorturl` always end in `.jpg`
for every source extension, gif included; only the `animated` flag records
that the source was a gif. -/
theorem claim_C2_amended :
    (∀ e : List Char, str_lower e = ".gif".data → new_file_ext e = e) ∧
    (∀ e : List Char, str_lower e ≠ ".gif".data →
      new_file_ext e = ".jpg".data ∧ content_type_of e = "image/jpeg".data) ∧
    (∀ target folder rel : List Char,
      s3_key target folder rel = "cards/".data ++ target ++ "/".data ++ folder ++
        "/".data ++ ((splitext rel).1 ++ new_file_ext (splitext rel).2)) ∧
    (∀ (target folder file : List Char) (nid level : Nat),
      (∃ a, (mk_card target folder file nid level).url = a ++ ".jpg".data) ∧
      (∃ a, (mk_card target folder file nid level).shorturl = a ++ ".jpg".data)) :=
  ⟨new_file_ext_gif, fun e h => ⟨new_file_ext_other e h, content_type_other e h⟩,
   fun _ _ _ => rfl, mk_card_url_jpg⟩

/-- Witness for C2 (amended) at concrete extensions and a concrete card. -/
theorem claim_C2_witness :
    new_file_ext ".GIF".data = ".GIF".data ∧ new_file_ext ".png".data = ".jpg".data ∧
    (∃ a, (mk_card "girlgroups".data "col".data "1_abc.gif".data 0 1).url =
      a ++ ".jpg".data) :=
  ⟨claim_C2_amended.1 ".GIF".data (by decide),
   (claim_C2_amended.2.1 ".png".data (by decide)).1,
   (claim_C2_amended.2.2.2 "girlgroups".data "col".data "1_abc.gif".data 0 1).1⟩

/-- C3 counterexample: `1_a.!` lies in the claimed language
`^\d+_\w+(_\w+)?\..+` yet the automate validator rejects it (the code's
extension part is `\w+`, not `.+`); moreover the promoauto variant rejects
the claim's own accepted example `3_iu.png` (its regex demands two
underscore-separated word groups). -/
theorem claim_C3_counterexample :
    spec_claim_lang "1_a.!".data ∧
    is_valid_filename "1_a.!".data = false ∧
    promo_is_valid_filename "3_iu.png".data = false :=
  ⟨⟨['1'], ['a'], [], ['!'], by decide, by decide, by decide, by decide, by decide,
    Or.inl rfl, by decide⟩, by decide, by decide⟩

/-- C3 (amended): each validator accepts exactly its own regex language -
the extension must begin with a word character (`\w+`), not an arbitrary
character (`.+`), and the promoauto variant additionally requires a second
underscore-separated word group; the claim's examples hold for the automate
validator, and any path without leading digits or without an underscore is
rejected. -/
theorem claim_C3_amended :
    (∀ s, is_valid_filename s = true ↔ regex_automate_lang s) ∧
    (∀ s, promo_is_valid_filename s = true ↔ regex_promo_lang s) ∧
    is_valid_filename "3_iu.png".data = true ∧
    is_valid_filename "iu.png".data = false ∧
    is_valid_filename "12_red_velvet_irene.jpg".data = true ∧
    promo_is_valid_filename "12_red_velvet_irene.jpg".data = true ∧
    promo_is_valid_filename "3_iu.png".data = false ∧
    (∀ s, s.takeWhile isDigitChar = [] → is_valid_filename s = false) ∧
    (∀ s, '_' ∉ s → is_valid_filename s = false) :=
  ⟨is_valid_filename_iff, promo_is_valid_filename_iff, by decide, by decide, by decide,
   by decide, by decide, not_valid_of_no_digit, not_valid_of_no_underscore⟩

/-- Witness for C3 (amended): the rejection clauses at concrete inputs. -/
theorem claim_C3_witness :
    is_valid_filename "iu.png".data = false ∧
    is_valid_filename "3iu.png".data = false ∧
    is_valid_filename "3_iu.png".data = true :=
  ⟨claim_C3_amended.2.2.2.2.2.2.2.1 "iu.png".data (by decide),
   claim_C3_amended.2.2.2.2.2.2.2.2 "3iu.png".data (by decide),
   (claim_C3_amended.1 "3_iu.png".data).mpr
     ⟨['3'], "iu".data, [], ['p'], "ng".data, by decide, by decide, by decide,
      by decide, by decide, Or.inl rfl, by decide, by decide⟩⟩

/-- C4: the upsert itself is idempotent (one record, internal flag `false`
on the second call), but `update_database` line 192 returns `True`
unconditionally, so the second call still reports `created = true` to its
caller - evaluating the model at the failing input. -/
theorem claim_C4_bug :
    (ensure_collection ⟨[], []⟩ "girlgroups".data "abc".data).2 = true ∧
    (ensure_collection (ensure_collection ⟨[], []⟩ "girlgroups".data "abc".data).1
        "girlgroups".data "abc".data).2 = false ∧
    (ensure_collection (ensure_collection ⟨[], []⟩ "girlgroups".data "abc".data).1
        "girlgroups".data "abc".data).1.collections.length = 1 ∧
    (update_database (ensure_collection ⟨[], []⟩ "girlgroups".data "abc".data).1
        "girlgroups".data "abc".data []).toOption =
      some ((ensure_collection ⟨[], []⟩ "girlgroups".data "abc".data).1, true) := by
  decide

/-- C5: if some file of the directory (validly named after renaming) fails
to upload, the directory processor performs no catalog write, returns the
empty upload list and a no-new-collection signal instead of propagating,
and the batch driver continues with the remaining directories. -/
theorem claim_C5 (env : UploadEnv) (st : CatalogState) (target : List Char)
    (dir : DirInfo) (f : List Char) (rest : List DirInfo)
    (hf : f ∈ dir.files) (hv : is_valid_filename (renamedName f) = true)
    (hu : env.uploadOk (renamedName f) = false) :
    process_directory env st target dir = (st, [], false) ∧
    process_batch env st target (dir :: rest) =
      ((process_batch env st target rest).1,
        ([], false) :: (process_batch env st target rest).2) := by
  have h1 := process_directory_upload_fail env st target dir f hf hv hu
  refine ⟨h1, ?_⟩
  rw [process_batch_cons, h1]

/-- Witness for C5: a two-file directory whose first file fails to upload. -/
theorem claim_C5_witness :
    process_directory ⟨fun r => !(r == "1_a.jpg".data)⟩ ⟨[], []⟩ "girlgroups".data
      ⟨"col".data, ["1_a.jpg".data, "2_b.jpg".data]⟩ = (⟨[], []⟩, [], false) ∧
    process_batch ⟨fun r => !(r == "1_a.jpg".data)⟩ ⟨[], []⟩ "girlgroups".data
      [⟨"col".data, ["1_a.jpg".data, "2_b.jpg".data]⟩] =
      ((process_batch ⟨fun r => !(r == "1_a.jpg".data)⟩ ⟨[], []⟩ "girlgroups".data []).1,
        ([], false) ::
          (process_batch ⟨fun r => !(r == "1_a.jpg".data)⟩ ⟨[], []⟩
            "girlgroups".data []).2) :=
  claim_C5 ⟨fun r => !(r == "1_a.jpg".data)⟩ ⟨[], []⟩ "girlgroups".data
    ⟨"col".data, ["1_a.jpg".data, "2_b.jpg".data]⟩ "1_a.jpg".data []
    (by decide) (by decide) (by decide)

/-- C6 counterexample: on the very directory of the claim
(`1_abc.jpg`, `2_abc.jpg`, `bad!name.jpg`), the promoauto variant uploads 0
files - its stricter validator rejects even the two well-formed names - and
its catalog step inserts 0 cards, so the pipeline does not upload 2 files
and insert 2 records as claimed. -/
theorem claim_C6_counterexample :
    promo_upload_files ⟨fun _ => true⟩
      ["1_abc.jpg".data, "2_abc.jpg".data, "bad!name.jpg".data] = Except.ok [] ∧
    (update_json_files [] [] "girlgroups".data "col".data
      ["1_abc.jpg".data, "2_abc.jpg".data, "bad!name.jpg".data] []).toOption.map
        (fun x => x.1.length) = some 0 := by
  constructor
  · decide
  · decide

/-- C6 (amended): in the document-store variant (`automate.py`) the claim
holds as stated: the pipeline uploads 2 files, inserts 2 card records with
the shared name `abc` (duplicates are not hard-blocked there), skips the
invalidly named file, and duplicate-name detection over the resulting
catalog reports exactly `{"abc"}`; the JSON variant instead rejects all
three names at validation (and would skip a same-name duplicate in its
catalog step). -/
theorem claim_C6_amended :
    (process_directory ⟨fun _ => true⟩ ⟨[], []⟩ "girlgroups".data
      ⟨"col".data, ["1_abc.jpg".data, "2_abc.jpg".data, "bad!name.jpg".data]⟩).2.1 =
      ["1_abc.jpg".data, "2_abc.jpg".data] ∧
    (process_directory ⟨fun _ => true⟩ ⟨[], []⟩ "girlgroups".data
      ⟨"col".data, ["1_abc.jpg".data, "2_abc.jpg".data, "bad!name.jpg".data]⟩).1.cards.map
        Card.name = ["abc".data, "abc".data] ∧
    (process_directory ⟨fun _ => true⟩ ⟨[], []⟩ "girlgroups".data
      ⟨"col".data, ["1_abc.jpg".data, "2_abc.jpg".data, "bad!name.jpg".data]⟩).1.cards.map
        Card.id = [0, 1] ∧
    (process_directory ⟨fun _ => true⟩ ⟨[], []⟩ "girlgroups".data
      ⟨"col".data, ["1_abc.jpg".data, "2_abc.jpg".data, "bad!name.jpg".data]⟩).1.cards.map
        Card.col = ["col".data, "col".data] ∧
    name_duplicates ((process_directory ⟨fun _ => true⟩ ⟨[], []⟩ "girlgroups".data
      ⟨"col".data, ["1_abc.jpg".data, "2_abc.jpg".data, "bad!name.jpg".data]⟩).1.cards.map
        Card.name) = ["abc".data] ∧
    upload_file ⟨fun _ => true⟩ "bad!name.jpg".data = Except.ok none := by
  refine ⟨by decide, by decide, by decide, by decide, by decide, by decide⟩

/-- C7: the filename normalization of `rename_files` (lower-case the stem,
replace spaces by underscores, keep the extension) is idempotent:
normalizing twice equals normalizing once, for every basename. -/
theorem claim_C7 (x : List Char) : renamedName (renamedName x) = renamedName x :=
  renamedName_idem_aux x

/-- C8: a file whose relative path fails the respective validator is a
silent skip in both upload steps: `upload_file` (automate) and
`promo_upload_file` (promoauto) return `None` regardless of what the object
store would do (no upload is attempted, nothing is raised), and removing
such a file from a directory listing leaves the entire upload result -
hence every downstream catalog write and both counts - unchanged. -/
theorem claim_C8 (env : UploadEnv) (f : List Char) :
    (is_valid_filename f = false →
      upload_file env f = Except.ok none ∧
      ∀ l1 l2, upload_files env (l1 ++ f :: l2) = upload_files env (l1 ++ l2)) ∧
    (promo_is_valid_filename f = false →
      promo_upload_file env f = Except.ok none ∧
      ∀ l1 l2, promo_upload_files env (l1 ++ f :: l2) =
        promo_upload_files env (l1 ++ l2)) :=
  ⟨fun h => ⟨upload_file_invalid env f h, upload_files_skip_invalid env f h⟩,
   fun h => ⟨promo_upload_file_invalid env f h,
     promo_upload_files_skip_invalid env f h⟩⟩

/-- Witness for C8: `iu.png` (automate-invalid) and `3_iu.png`
(promo-invalid), each against a store where every upload would fail. -/
theorem claim_C8_witness :
    (upload_file ⟨fun _ => false⟩ "iu.png".data = Except.ok none ∧
      upload_files ⟨fun _ => false⟩ (["1_a.jpg".data] ++ "iu.png".data :: []) =
        upload_files ⟨fun _ => false⟩ (["1_a.jpg".data] ++ [])) ∧
    (promo_upload_file ⟨fun _ => false⟩ "3_iu.png".data = Except.ok none ∧
      promo_upload_files ⟨fun _ => false⟩
          (["1_a_b.jpg".data] ++ "3_iu.png".data :: []) =
        promo_upload_files ⟨fun _ => false⟩ (["1_a_b.jpg".data] ++ [])) :=
  ⟨⟨((claim_C8 ⟨fun _ => false⟩ "iu.png".data).1 (by decide)).1,
    ((claim_C8 ⟨fun _ => false⟩ "iu.png".data).1 (by decide)).2 ["1_a.jpg".data] []⟩,
   ⟨((claim_C8 ⟨fun _ => false⟩ "3_iu.png".data).2 (by decide)).1,
    ((claim_C8 ⟨fun _ => false⟩ "3_iu.png".data).2 (by decide)).2
      ["1_a_b.jpg".data] []⟩⟩

/-- C9: for every path accepted by the validator, the first
underscore-separated segment of the (lower-cased) stem is a nonempty string
of digits, so the catalog step's `int()` parse always succeeds and can
never raise. -/
theorem claim_C9 (s : List Char) (h : is_valid_filename s = true) :
    first_underscore_segment (str_lower (splitext s).1) ≠ [] ∧
    (first_underscore_segment (str_lower (splitext s).1)).all isDigitChar = true ∧
    ∃ n, int_parse (first_underscore_segment (str_lower (splitext s).1)) = some n := by
  obtain ⟨d, hseg, hdne, hdall⟩ := level_segment_eq s h
  rw [hseg]
  exact ⟨hdne, hdall, by rw [← hseg]; exact parse_level_of_valid s h⟩

/-- Witness for C9 at `3_iu.png`. -/
theorem claim_C9_witness :
    first_underscore_segment (str_lower (splitext "3_iu.png".data).1) ≠ [] ∧
    (first_underscore_segment (str_lower (splitext "3_iu.png".data).1)).all
      isDigitChar = true ∧
    ∃ n, int_parse (first_underscore_segment (str_lower (splitext "3_iu.png".data).1)) =
      some n :=
  claim_C9 "3_iu.png".data (by decide)

/-- C10: neither upload step consults `ACCEPTED_EXTENSIONS`: every file
whose name passes the respective validator is uploaded whatever its
extension (a `.txt` file with a valid name included) by both `upload_file`
and `promo_upload_file`, with the stored key rewritten to `.jpg` and
content type `image/jpeg` for every non-gif extension. -/
theorem claim_C10 :
    (∀ (env : UploadEnv) (f : List Char), is_valid_filename f = true →
      env.uploadOk f = true → upload_file env f = Except.ok (some f)) ∧
    (∀ (env : UploadEnv) (f : List Char), promo_is_valid_filename f = true →
      env.uploadOk f = true → promo_upload_file env f = Except.ok (some f)) ∧
    (∀ e : List Char, str_lower e ≠ ".gif".data →
      new_file_ext e = ".jpg".data ∧ content_type_of e = "image/jpeg".data) ∧
    is_valid_filename "1_a.txt".data = true ∧
    promo_is_valid_filename "1_a_b.txt".data = true ∧
    ACCEPTED_EXTENSIONS.contains ".txt".data = false ∧
    s3_key "girlgroups".data "col".data "1_a.txt".data =
      "cards/girlgroups/col/1_a.jpg".data ∧
    promo_s3_key "promo/girlgroups".data "col".data "1_a_b.txt".data =
      "promo/girlgroups/col/1_a_b.jpg".data ∧
    content_type_of (splitext "1_a.txt".data).2 = "image/jpeg".data :=
  ⟨upload_file_valid_ok, promo_upload_file_valid_ok,
   fun e h => ⟨new_file_ext_other e h, content_type_other e h⟩,
   by decide, by decide, by decide, by decide, by decide, by decide⟩

/-- Witness for C10: validly named `.txt` files are uploaded by both
upload steps. -/
theorem claim_C10_witness :
    upload_file ⟨fun _ => true⟩ "1_a.txt".data = Except.ok (some "1_a.txt".data) ∧
    promo_upload_file ⟨fun _ => true⟩ "1_a_b.txt".data =
      Except.ok (some "1_a_b.txt".data) ∧
    new_file_ext ".txt".data = ".jpg".data :=
  ⟨claim_C10.1 ⟨fun _ => true⟩ "1_a.txt".data (by decide) (by decide),
   claim_C10.2.1 ⟨fun _ => true⟩ "1_a_b.txt".data (by decide) (by decide),
   (claim_C10.2.2.1 ".txt".data (by decide)).1⟩
